import Mathlib

/-!
# Verification of the video2audio-rs core (shallow embedding)

This file embeds the core of the `video2audio-rs` repository in Lean 4:

* `src/audio_format.rs` — the `AudioFormat` enum with its extension,
  FFmpeg-argument, parsing and enumeration functions;
* `src/file_processor.rs` — file discovery (`find_video_files`,
  `is_supported_video_file`), output-path resolution (`build_output_path`),
  single-file conversion (`convert_single_file`,
  `check_ffmpeg_availability`, `execute_ffmpeg_conversion`), and the parallel
  batch driver (`batch_convert`) which is modelled as an interleaving
  transition system whose atomic steps are exactly the mutex-protected
  critical sections of the Rust code.

Modelling conventions:

* Rust `Path`/`OsStr` values (Unix: arbitrary byte sequences) are modelled as
  `List UInt8`.  `'/'` is byte 47, `'.'` is byte 46.
* `OsStr::to_str` succeeds exactly on valid UTF-8, so a faithful UTF-8
  validator (`validUtf8`) and lossy decoder (`utf8Lossy`, for
  `to_string_lossy`) over byte lists are defined below, as a byte-at-a-time
  state machine following the table enforced by Rust's `str::from_utf8`.
* Rust's Unicode `str::to_lowercase` is applied by this program only to
  decide membership in an all-ASCII extension allow-list.  `rustLowercase`
  models it exactly with respect to that comparison: ASCII `A`-`Z` fold to
  `a`-`z` and U+212A KELVIN SIGN lowercases to ASCII `k` — the only Unicode
  scalar whose full lowercase mapping is a single ASCII character — while
  every other scalar is kept, which changes no comparison because both it
  and its real lowercase contain a non-ASCII character.
* Error values carry no message payloads: the Rust error messages are
  human-readable strings no theorem below depends on.
-/

namespace V2A

/-- The Unix path separator byte `'/'`. -/
def SEP : UInt8 := 47

/-- The extension separator byte `'.'`. -/
def DOT : UInt8 := 46

/-- Bytes of an ASCII string literal (for ASCII strings these are exactly the
UTF-8 bytes Rust would see). -/
def ascii (s : String) : List UInt8 := s.toList.map (fun c => UInt8.ofNat c.toNat)

/-- ASCII lowercasing of a single byte. -/
def lowerByte (b : UInt8) : UInt8 := if 65 ≤ b ∧ b ≤ 90 then b + 32 else b

/-- `str::to_lowercase` as far as comparison against the all-ASCII extension
allow-list can observe, at the UTF-8 byte level: ASCII `A`-`Z` lowercase to
`a`-`z`, and U+212A KELVIN SIGN (UTF-8 bytes `E2 84 AA`) lowercases to ASCII
`k`.  Keeping every other scalar unchanged is exact for this comparison:
U+212A is the only Unicode scalar whose full lowercase mapping is a single
ASCII character (the only other mapping producing any ASCII character is
U+0130 → `i` followed by the non-ASCII U+0307), so for every other scalar
both the scalar itself and its real lowercase contain a non-ASCII character
and fail an all-ASCII comparison identically.  The byte-level scan is sound
because `to_lowercase` only ever receives valid UTF-8 (its `to_str` has
succeeded), where `E2` and ASCII bytes occur only at scalar boundaries. -/
def rustLowercase : List UInt8 → List UInt8
  | [] => []
  | 226 :: 132 :: 170 :: rest => 107 :: rustLowercase rest
  | b :: rest => lowerByte b :: rustLowercase rest

/-- The UTF-8 encoding of U+FFFD REPLACEMENT CHARACTER. -/
def REP : List UInt8 := [239, 191, 189]

/-- A partially read multi-byte UTF-8 sequence: the bytes read so far, the
number of continuation bytes still required, and the admissible range for the
next byte (Rust's `str::from_utf8` table: the first continuation byte of a
sequence led by `E0`/`ED`/`F0`/`F4` has a restricted range that rules out
overlong forms, surrogates and values above U+10FFFF). -/
structure Pend where
  bytes : List UInt8
  need : Nat
  lo : UInt8
  hi : UInt8
deriving DecidableEq, Repr

/-- Classify a byte arriving outside any multi-byte sequence: emitted output,
new decoder state, and whether the byte was acceptable.  ASCII is emitted
directly; a valid lead byte opens a sequence; anything else (stray
continuation, `C0`/`C1`, `F5`–`FF`) is an invalid one-byte subpart replaced
by U+FFFD. -/
def startByte (x : UInt8) : List UInt8 × Option Pend × Bool :=
  if x ≤ 127 then ([x], none, true)
  else if 194 ≤ x ∧ x ≤ 223 then ([], some ⟨[x], 1, 128, 191⟩, true)
  else if x = 224 then ([], some ⟨[x], 2, 160, 191⟩, true)
  else if (225 ≤ x ∧ x ≤ 236) ∨ x = 238 ∨ x = 239 then ([], some ⟨[x], 2, 128, 191⟩, true)
  else if x = 237 then ([], some ⟨[x], 2, 128, 159⟩, true)
  else if x = 240 then ([], some ⟨[x], 3, 144, 191⟩, true)
  else if 241 ≤ x ∧ x ≤ 243 then ([], some ⟨[x], 3, 128, 191⟩, true)
  else if x = 244 then ([], some ⟨[x], 3, 128, 143⟩, true)
  else (REP, none, false)

/-- Feed one byte to the UTF-8 decoder: `(emitted bytes, new state, step was
valid)`.  On a byte that does not continue the pending sequence, the maximal
subpart read so far is replaced by U+FFFD and the byte is reconsidered as a
fresh start, exactly as `String::from_utf8_lossy` does. -/
def feed : Option Pend → UInt8 → List UInt8 × Option Pend × Bool
  | none, x => startByte x
  | some p, x =>
    if p.lo ≤ x ∧ x ≤ p.hi then
      if p.need = 1 then (p.bytes ++ [x], none, true)
      else ([], some ⟨p.bytes ++ [x], p.need - 1, 128, 191⟩, true)
    else (REP ++ (startByte x).1, (startByte x).2.1, false)

/-- UTF-8 validity of a byte suffix given the decoder state: every step must
be valid and no sequence may be pending at the end.  `validUtf8 = validAux
none` agrees with Rust's `str::from_utf8` acceptance. -/
def validAux : Option Pend → List UInt8 → Bool
  | none, [] => true
  | some _, [] => false
  | st, x :: rest => (feed st x).2.2 && validAux (feed st x).2.1 rest

/-- Does `str::from_utf8` (hence `OsStr::to_str` / `Path::to_str`) accept
these bytes? -/
def validUtf8 (l : List UInt8) : Bool := validAux none l

/-- Lossy UTF-8 decoding re-encoded as bytes, given the decoder state; a
sequence still pending at the end of input is one final invalid subpart. -/
def lossyAux : Option Pend → List UInt8 → List UInt8
  | none, [] => []
  | some _, [] => REP
  | st, x :: rest => (feed st x).1 ++ lossyAux (feed st x).2.1 rest

/-- `String::from_utf8_lossy`, re-encoded as UTF-8 bytes. -/
def utf8Lossy (l : List UInt8) : List UInt8 := lossyAux none l

/-- `OsStr::to_str`: `some` exactly on valid UTF-8 (the bytes themselves are
kept as the string value). -/
def osToStr (p : List UInt8) : Option (List UInt8) :=
  if validUtf8 p then some p else none

/-- The bytes held by a decoder state. -/
def stBytes : Option Pend → List UInt8
  | none => []
  | some p => p.bytes

/-! ## Rust `Path` operations on Unix byte strings -/
/-- Split a byte string at every `'/'`. -/
def splitSep : List UInt8 → List (List UInt8)
  | [] => [[]]
  | b :: rest =>
    if b = SEP then [] :: splitSep rest
    else
      match splitSep rest with
      | c :: cs => (b :: c) :: cs
      | [] => [[b]]

/-- The normal path components: splitting at `'/'`, dropping empty chunks
(repeated separators, leading/trailing separator) and `'.'` chunks, as Rust's
`Path::components` normalisation does. -/
def pathComponents (p : List UInt8) : List (List UInt8) :=
  (splitSep p).filter (fun c => decide (c ≠ [] ∧ c ≠ [DOT]))

/-- `Path::file_name` on Unix: the last normal component, unless the path
ends in `..`. -/
def fileName (p : List UInt8) : Option (List UInt8) :=
  match (pathComponents p).getLast? with
  | none => none
  | some c => if c = [DOT, DOT] then none else some c

/-- `PathBuf::join` on Unix: an absolute right operand replaces the path;
otherwise the right operand is appended, inserting a `'/'` unless the left
operand is empty or already ends in `'/'`. -/
def pathJoin (dir name : List UInt8) : List UInt8 :=
  if name.head? = some SEP then name
  else if dir = [] then name
  else if dir.getLast? = some SEP then dir ++ name
  else dir ++ SEP :: name

/-- Split a file name into (stem, optional extension) as Rust's
`Path::file_stem`/`Path::extension` do: the extension is what follows the
last `'.'`, except that a `'.'` at the very start of the name (hidden files)
does not count. -/
def extSplit (name : List UInt8) : List UInt8 × Option (List UInt8) :=
  match name.reverse.dropWhile (fun b => decide (b ≠ DOT)) with
  | [] => (name, none)
  | [_] => (name, none)
  | _ :: rest => (rest.reverse, some (name.reverse.takeWhile (fun b => decide (b ≠ DOT))).reverse)

/-- `Path::file_stem` on Unix. -/
def fileStem (p : List UInt8) : Option (List UInt8) :=
  (fileName p).map (fun n => (extSplit n).1)

/-- `Path::extension` on Unix. -/
def pathExtension (p : List UInt8) : Option (List UInt8) :=
  (fileName p).bind (fun n => (extSplit n).2)

/-! ## `src/error.rs`: the error taxonomy (message payloads omitted) -/
/-- `VideoToAudioError` from `src/error.rs`.  The `String`/`io::Error`
payloads carried by the Rust variants are human-readable diagnostics that no
behaviour depends on, so they are omitted here. -/
inductive VErr where
  | io
  | ffmpegError
  | invalidPath
  | invalidInput
  | unsupportedFormat
  | missingDependency
deriving DecidableEq, Repr

/-! ## `src/audio_format.rs`: the `AudioFormat` enum -/
/-- The `AudioFormat` enum. -/
inductive AudioFormat where
  | mp3
  | aacCopy
  | opus
deriving DecidableEq, Repr

/-- `AudioFormat::extension`. -/
def AudioFormat.extension : AudioFormat → String
  | .mp3 => "mp3"
  | .aacCopy => "aac"
  | .opus => "opus"

/-- `AudioFormat::ffmpeg_args`: the format-specific FFmpeg arguments. -/
def AudioFormat.ffmpegArgs : AudioFormat → List String
  | .mp3 => ["-q:a", "0"]
  | .aacCopy => ["-c:a", "copy"]
  | .opus => ["-c:a", "libopus", "-b:a", "192k"]

/-- ASCII whitespace trimming of a character list, modelling `str::trim`
(which on the inputs accepted below only ever strips ASCII whitespace). -/
def trimChars (l : List Char) : List Char :=
  ((l.dropWhile Char.isWhitespace).reverse.dropWhile Char.isWhitespace).reverse

/-- `AudioFormat::from_user_input`: trim, lowercase, then match ordinals and
names. -/
def AudioFormat.fromUserInput (input : String) : Except VErr AudioFormat :=
  let s := String.mk ((trimChars input.data).map Char.toLower)
  if s = "1" ∨ s = "mp3" then .ok .mp3
  else if s = "2" ∨ s = "aac" ∨ s = "aac-copy" then .ok .aacCopy
  else if s = "3" ∨ s = "opus" then .ok .opus
  else .error .invalidInput

/-- `AudioFormat::all_formats`. -/
def AudioFormat.allFormats : List AudioFormat :=
  [.mp3, .aacCopy, .opus]

/-! ## `src/file_processor.rs`: supported extensions and output paths -/
/-- The `supported_extensions` list installed by `FileProcessor::new`. -/
def supportedExtensions : List (List UInt8) :=
  [ascii "mp4", ascii "mkv", ascii "avi", ascii "mov", ascii "webm",
   ascii "flv", ascii "wmv", ascii "m4v", ascii "3gp", ascii "ts"]

/-- `FileProcessor::is_supported_video_file`: the extension, if it converts
to UTF-8, lowercased, must be in the supported list. -/
def isSupportedVideoFile (p : List UInt8) : Bool :=
  match pathExtension p with
  | none => false
  | some e =>
    match osToStr e with
    | none => false
    | some s => decide (rustLowercase s ∈ supportedExtensions)

/-- `FileProcessor::build_output_path`: `InvalidPath` when the source has no
file stem, otherwise `output_dir.join(format!("{stem}.{ext}"))` where the
stem passes through `to_string_lossy`. -/
def buildOutputPath (sourceFile outputDir : List UInt8) (format : AudioFormat) :
    Except VErr (List UInt8) :=
  match fileStem sourceFile with
  | none => .error .invalidPath
  | some stem => .ok (pathJoin outputDir (utf8Lossy stem ++ DOT :: ascii format.extension))

/-! ## External process model -/
/-- An observable child-process launch: the `ffmpeg -version` availability
probe, or a conversion run with its full argument vector. -/
inductive Event where
  | probe
  | run (args : List (List UInt8))
deriving DecidableEq, Repr

/-- The environment a conversion runs in: which paths exist, whether the
`ffmpeg` binary can be launched, and the outcome of a conversion run
(`none`: the child process could not be spawned, an `Io` error; `some b`:
the process ran and `b` tells whether its exit status was success). -/
structure Env where
  fileExists : List UInt8 → Bool
  probeLaunchOk : Bool
  runResult : List (List UInt8) → Option Bool

/-- `FileProcessor::check_ffmpeg_availability`: launching `ffmpeg -version`
is the probe; only a launch failure is an error (`MissingDependency`),
independent of the probe's own exit status. -/
def checkFfmpegAvailability (env : Env) : Except VErr Unit × List Event :=
  if env.probeLaunchOk then (.ok (), [.probe]) else (.error .missingDependency, [.probe])

/-- The argument vector `execute_ffmpeg_conversion` builds: overwrite flag,
quiet/error-only logging flags, input, no-video flag, format-specific
arguments, output. -/
def ffmpegArgv (sourceStr outputStr : List UInt8) (format : AudioFormat) :
    List (List UInt8) :=
  [ascii "-y", ascii "-hide_banner", ascii "-loglevel", ascii "error",
   ascii "-i", sourceStr, ascii "-vn"]
  ++ format.ffmpegArgs.map ascii ++ [outputStr]

/-- `FileProcessor::execute_ffmpeg_conversion`: both paths must convert to
UTF-8 (`InvalidPath` otherwise, with no child process launched); then the
tool is run with `ffmpegArgv`; a spawn failure is an `Io` error and a
non-zero exit status an `FfmpegError`. -/
def executeFfmpegConversion (env : Env) (sourceFile outputPath : List UInt8)
    (format : AudioFormat) : Except VErr Unit × List Event :=
  match osToStr sourceFile with
  | none => (.error .invalidPath, [])
  | some sourceStr =>
    match osToStr outputPath with
    | none => (.error .invalidPath, [])
    | some outputStr =>
      let argv := ffmpegArgv sourceStr outputStr format
      match env.runResult argv with
      | none => (.error .io, [.run argv])
      | some true => (.ok (), [.run argv])
      | some false => (.error .ffmpegError, [.run argv])

/-- `FileProcessor::convert_single_file`: existence check, output-path
resolution, availability probe, conversion, in that order; returns the
output path on success, together with the trace of child-process launches. -/
def convertSingleFile (env : Env) (sourceFile outputDir : List UInt8)
    (format : AudioFormat) : Except VErr (List UInt8) × List Event :=
  if env.fileExists sourceFile = false then (.error .invalidPath, [])
  else
    match buildOutputPath sourceFile outputDir format with
    | .error e => (.error e, [])
    | .ok outputPath =>
      match checkFfmpegAvailability env with
      | (.error e, evs) => (.error e, evs)
      | (.ok _, evs) =>
        match executeFfmpegConversion env sourceFile outputPath format with
        | (.error e, evs2) => (.error e, evs ++ evs2)
        | (.ok _, evs2) => (.ok outputPath, evs ++ evs2)

/-! ## Filesystem trees and `find_video_files`

`find_video_files` walks an existing directory with the `walkdir` crate.  The
directory's contents are modelled as a forest: a `file` leaf, a readable
`dir` with children, or a `badDir` whose entry is yielded but whose contents
cannot be read, making the walk yield an error — the situation
`find_video_files` maps to `VideoToAudioError::Io`.  The `exists`/`is_dir`
guards of the Rust function are modelled by the premise that the root is an
existing directory whose children form the given forest. -/
mutual
inductive FsTree where
  | file (name : List UInt8)
  | dir (name : List UInt8) (children : FsForest)
  | badDir (name : List UInt8)
inductive FsForest where
  | nil
  | cons (t : FsTree) (ts : FsForest)
end

/-- One entry yielded by the `walkdir` iterator: a path with its
file-vs-directory flag, or a walk error. -/
abbrev WEntry := Except Unit (List UInt8 × Bool)

mutual
/-- The entries `walkdir` yields under a tree node (the node itself first,
depth-first). -/
def walkTree (base : List UInt8) : FsTree → List WEntry
  | .file n => [.ok (pathJoin base n, true)]
  | .badDir n => [.ok (pathJoin base n, false), .error ()]
  | .dir n cs => .ok (pathJoin base n, false) :: walkForest (pathJoin base n) cs
/-- The entries `walkdir` yields for a forest of siblings. -/
def walkForest (base : List UInt8) : FsForest → List WEntry
  | .nil => []
  | .cons t ts => walkTree base t ++ walkForest base ts
end

mutual
/-- Does the walk of this tree hit an unreadable entry? -/
def hasBadTree : FsTree → Bool
  | .file _ => false
  | .badDir _ => true
  | .dir _ cs => hasBadForest cs
/-- Does the walk of this forest hit an unreadable entry? -/
def hasBadForest : FsForest → Bool
  | .nil => false
  | .cons t ts => hasBadTree t || hasBadForest ts
end

mutual
/-- Is `p` the path of a regular file somewhere (at any depth) in this tree
rooted at `base`? -/
def fileInTree (base p : List UInt8) : FsTree → Bool
  | .file n => decide (p = pathJoin base n)
  | .badDir _ => false
  | .dir n cs => fileInForest (pathJoin base n) p cs
/-- Is `p` the path of a regular file somewhere in this forest? -/
def fileInForest (base p : List UInt8) : FsForest → Bool
  | .nil => false
  | .cons t ts => fileInTree base p t || fileInForest base p ts
end

/-- The `filter_map` closure of `find_video_files`: keep files as `Ok`,
skip directories, turn walk errors into `VideoToAudioError::Io`. -/
def entryToResult : WEntry → Option (Except VErr (List UInt8))
  | .ok (p, true) => some (.ok p)
  | .ok (_, false) => none
  | .error _ => some (.error .io)

/-- The `filter` closure of `find_video_files`: keep supported video files
and keep errors so they propagate. -/
def keepResult : Except VErr (List UInt8) → Bool
  | .ok p => isSupportedVideoFile p
  | .error _ => true

/-- `Iterator::collect` into a `Result` of a `Vec`: the list of `Ok` values,
or the first error encountered. -/
def collectResults : List (Except VErr (List UInt8)) → Except VErr (List (List UInt8))
  | [] => .ok []
  | .error e :: _ => .error e
  | .ok a :: rest => (collectResults rest).map (a :: ·)

/-- `FileProcessor::find_video_files` after its `exists`/`is_dir` guards:
walk the tree (the root directory entry first), keep supported video files,
propagate the first walk error. -/
def findVideoFiles (sourceDir : List UInt8) (cs : FsForest) :
    Except VErr (List (List UInt8)) :=
  collectResults
    (((.ok (sourceDir, false) :: walkForest sourceDir cs).filterMap entryToResult).filter
      keepResult)

/-! ## `FileProcessor::batch_convert` as an interleaving transition system

`batch_convert` runs one Rayon task per input file.  Each task performs, in
order: (1) `convert_single_file` (no lock held), (2) lock the success or
failure counter mutex and increment it, (3) lock the progress counter mutex,
increment it, and invoke the progress callback while still holding that
lock.  The three mutex-protected critical sections are the atomic steps of
the transition system below; steps of different tasks interleave
arbitrarily, which covers every schedule Rayon can produce. -/
/-- Where one per-file task currently stands.  The conversion outcome is
carried along so the tally steps can record it. -/
inductive Phase where
  | pending
  | converted (ok : Bool)
  | tallied (ok : Bool)
  | finished (ok : Bool)
deriving DecidableEq, Repr

/-- The inputs of one `batch_convert` call. -/
structure BatchParams where
  env : Env
  files : List (List UInt8)
  outputDir : List UInt8
  format : AudioFormat

/-- The shared state of a `batch_convert` run: per-task phases, the three
mutex-guarded counters, the progress-callback invocations `(current, total)`
in delivery order, and the child-process launches performed so far. -/
structure BatchState where
  phases : List Phase
  succeeded : Nat
  failed : Nat
  processed : Nat
  events : List (Nat × Nat)
  effects : List Event
deriving Repr

/-- The state before any task runs. -/
def initState (P : BatchParams) : BatchState :=
  ⟨P.files.map (fun _ => .pending), 0, 0, 0, [], []⟩

/-- Did `convert_single_file` succeed on this file? -/
def convOk (P : BatchParams) (f : List UInt8) : Bool :=
  match (convertSingleFile P.env f P.outputDir P.format).1 with
  | .ok _ => true
  | .error _ => false

/-- One atomic step of `batch_convert`: a task converts its file (outside
any lock), or increments the success/failure counter under that counter's
mutex, or increments the progress counter and invokes the callback under the
progress mutex. -/
inductive BatchStep (P : BatchParams) : BatchState → BatchState → Prop where
  | convert (i : Nat) (f : List UInt8) (s : BatchState)
      (hp : s.phases[i]? = some .pending) (hf : P.files[i]? = some f) :
      BatchStep P s
        ⟨s.phases.set i (.converted (convOk P f)), s.succeeded, s.failed,
          s.processed, s.events,
          s.effects ++ (convertSingleFile P.env f P.outputDir P.format).2⟩
  | tally (i : Nat) (o : Bool) (s : BatchState)
      (hp : s.phases[i]? = some (.converted o)) :
      BatchStep P s
        ⟨s.phases.set i (.tallied o),
          if o then s.succeeded + 1 else s.succeeded,
          if o then s.failed else s.failed + 1,
          s.processed, s.events, s.effects⟩
  | report (i : Nat) (o : Bool) (s : BatchState)
      (hp : s.phases[i]? = some (.tallied o)) :
      BatchStep P s
        ⟨s.phases.set i (.finished o), s.succeeded, s.failed,
          s.processed + 1, s.events ++ [(s.processed + 1, P.files.length)],
          s.effects⟩

/-- All interleavings of `batch_convert` from a state. -/
def Reach (P : BatchParams) : BatchState → BatchState → Prop :=
  Relation.ReflTransGen (BatchStep P)

/-- `batch_convert` returns once every task has finished. -/
def AllFinished (s : BatchState) : Prop :=
  ∀ p ∈ s.phases, ∃ o, p = Phase.finished o

/-- Has this task been counted into the success counter? -/
def isSucc : Phase → Bool
  | .tallied true => true
  | .finished true => true
  | _ => false

/-- Has this task been counted into the failure counter? -/
def isFail : Phase → Bool
  | .tallied false => true
  | .finished false => true
  | _ => false

/-- Has this task been counted into the progress counter? -/
def isFin : Phase → Bool
  | .finished _ => true
  | _ => false

/-- The conversion outcome recorded in a phase, if the conversion ran. -/
def phaseOutcome : Phase → Option Bool
  | .pending => none
  | .converted o => some o
  | .tallied o => some o
  | .finished o => some o

/-- Count the phases satisfying a predicate. -/
def countP (q : Phase → Bool) (l : List Phase) : Nat := (l.filter q).length

/-- The inductive invariant of `batch_convert`: counters agree with the
phase multiset, the progress events are exactly `(1, N) … (processed, N)`,
and each recorded outcome is the real `convert_single_file` outcome of the
corresponding file. -/
structure Inv (P : BatchParams) (s : BatchState) : Prop where
  len : s.phases.length = P.files.length
  succ_eq : s.succeeded = countP isSucc s.phases
  fail_eq : s.failed = countP isFail s.phases
  proc_eq : s.processed = countP isFin s.phases
  events_eq : s.events = (List.range s.processed).map (fun k => (k + 1, P.files.length))
  outcomes : ∀ (i : Nat) (p : Phase) (o : Bool), s.phases[i]? = some p →
    phaseOutcome p = some o → ∃ f, P.files[i]? = some f ∧ convOk P f = o

/-! ## Concrete executions used as witnesses and counterexamples -/
/-- An environment in which no file exists (so every conversion fails with
`InvalidPath` before launching anything). -/
def exEnv : Env := ⟨fun _ => false, true, fun _ => some true⟩

/-- A one-file batch whose single item is guaranteed to fail. -/
def exParams : BatchParams := ⟨exEnv, [ascii "missing.mp4"], ascii "out", .mp3⟩

/-- The final state of the `exParams` batch. -/
def exFinal : BatchState := ⟨[.finished false], 0, 1, 1, [(1, 1)], []⟩

/-- A two-file batch (both conversions fail) used to exhibit a torn tally. -/
def cexParams : BatchParams := ⟨exEnv, [ascii "a.mp4", ascii "b.mp4"], ascii "out", .mp3⟩

/-- A reachable state of `cexParams` in which task 0 has fully completed its
item (its progress notification is delivered) while task 1 sits between its
failure-counter increment and its progress-counter increment. -/
def tornState : BatchState := ⟨[.finished false, .tallied false], 0, 2, 1, [(1, 2)], []⟩

/-- An empty batch over the example environment. -/
def emptyParams : BatchParams := ⟨exEnv, [], ascii "out", .mp3⟩

/-- No byte of the decoder state is the separator. -/
def noSepSt (st : Option Pend) : Prop := ∀ b ∈ stBytes st, b ≠ SEP

/-- An environment where every path exists and the tool is available, used
for the C10 witness. -/
def allEnv : Env := ⟨fun _ => true, true, fun _ => some true⟩

/-- A file name `d.m` followed by U+212A KELVIN SIGN followed by `v`: its
extension Unicode-lowercases to the supported `mkv`. -/
def kelvinName : List UInt8 := ascii "d.m" ++ [226, 132, 170] ++ ascii "v"

/-- A small concrete directory: `a.MP4`, the Kelvin-sign file `kelvinName`,
and a subdirectory `sub` containing `b.txt` and `c.mkv`. -/
def exForest : FsForest :=
  .cons (.file (ascii "a.MP4"))
    (.cons (.file kelvinName)
      (.cons (.dir (ascii "sub")
        (.cons (.file (ascii "b.txt")) (.cons (.file (ascii "c.mkv")) .nil)))
        .nil))

/-- A directory tree whose subdirectory `locked` cannot be read. -/
def badForest : FsForest :=
  .cons (.file (ascii "a.mp4")) (.cons (.badDir (ascii "locked")) .nil)

theorem startByte_ok (x : UInt8) (h : (startByte x).2.2 = true) :
    (startByte x).1 ++ stBytes (startByte x).2.1 = [x] := by
  unfold startByte at h ⊢
  split_ifs at h ⊢ <;> simp_all [stBytes]

theorem feed_valid_out (st : Option Pend) (x : UInt8)
    (h : (feed st x).2.2 = true) :
    (feed st x).1 ++ stBytes (feed st x).2.1 = stBytes st ++ [x] := by
  cases st with
  | none => simpa [feed, stBytes] using startByte_ok x (by simpa [feed] using h)
  | some p =>
    simp only [feed] at h ⊢
    split at h
    · split at h <;> simp_all [stBytes]
    · simp at h

/-- On valid input the lossy decoder is the identity (prefixed by any bytes
already pending in the state). -/
theorem lossyAux_of_validAux (l : List UInt8) :
    ∀ st : Option Pend, validAux st l = true → lossyAux st l = stBytes st ++ l := by
  induction l with
  | nil =>
    intro st h
    cases st with
    | none => simp [lossyAux, stBytes]
    | some p => simp [validAux] at h
  | cons x rest ih =>
    intro st h
    simp only [validAux, Bool.and_eq_true] at h
    have hstep := feed_valid_out st x h.1
    simp only [lossyAux, ih _ h.2, ← List.append_assoc, hstep]
    simp

/-- `String::from_utf8_lossy` is the identity on valid UTF-8, as in Rust. -/
theorem utf8Lossy_of_valid (l : List UInt8) (h : validUtf8 l = true) :
    utf8Lossy l = l := by
  simpa [stBytes] using lossyAux_of_validAux l none h

theorem splitSep_ne_nil (p : List UInt8) : splitSep p ≠ [] := by
  cases p with
  | nil => simp [splitSep]
  | cons b rest =>
    simp only [splitSep]
    split
    · simp
    · split <;> simp

theorem splitSep_append_sep (xs ys : List UInt8) :
    splitSep (xs ++ SEP :: ys) = splitSep xs ++ splitSep ys := by
  induction xs with
  | nil => simp [splitSep]
  | cons x xs ih =>
    simp only [List.cons_append, splitSep]
    split
    · simp [ih]
    · rw [List.append_eq, ih]
      cases h : splitSep xs with
      | nil => exact absurd h (splitSep_ne_nil xs)
      | cons c cs => simp

theorem splitSep_no_sep (xs : List UInt8) (h : SEP ∉ xs) : splitSep xs = [xs] := by
  induction xs with
  | nil => simp [splitSep]
  | cons x xs ih =>
    simp only [List.mem_cons, not_or] at h
    simp [splitSep, Ne.symm h.1, ih h.2]

theorem sep_not_mem_of_mem_splitSep (p : List UInt8) (c : List UInt8)
    (hc : c ∈ splitSep p) : SEP ∉ c := by
  induction p generalizing c with
  | nil =>
    simp only [splitSep, List.mem_singleton] at hc
    subst hc; simp
  | cons b rest ih =>
    simp only [splitSep] at hc
    split at hc
    · rcases List.mem_cons.mp hc with h | h
      · subst h; simp
      · exact ih c h
    · rename_i hb
      cases hsp : splitSep rest with
      | nil => exact absurd hsp (splitSep_ne_nil rest)
      | cons c0 cs =>
        rw [hsp] at hc
        rcases List.mem_cons.mp hc with h | h
        · subst h
          intro hmem
          rcases List.mem_cons.mp hmem with h' | h'
          · exact hb h'.symm
          · exact ih c0 (by rw [hsp]; exact List.mem_cons_self c0 cs) h'
        · exact ih c (by rw [hsp]; exact List.mem_cons_of_mem c0 h)

/-! ## Invariants of the batch transition system -/
theorem countP_cons (q : Phase → Bool) (x : Phase) (xs : List Phase) :
    countP q (x :: xs) = (if q x then 1 else 0) + countP q xs := by
  simp only [countP, List.filter_cons]
  split <;> simp <;> omega

theorem countP_set (q : Phase → Bool) :
    ∀ (l : List Phase) (i : Nat) (a b : Phase), l[i]? = some a →
      countP q (l.set i b) + (if q a then 1 else 0)
        = countP q l + (if q b then 1 else 0) := by
  intro l
  induction l with
  | nil => intro i a b h; simp at h
  | cons x xs ih =>
    intro i a b h
    cases i with
    | zero =>
      simp only [List.getElem?_cons_zero, Option.some.injEq] at h
      rw [← h]
      simp only [List.set, countP, List.filter_cons]
      by_cases hqx : q x <;> by_cases hqb : q b <;> simp [hqx, hqb] <;> omega
    | succ n =>
      simp only [List.getElem?_cons_succ] at h
      have hrec := ih n a b h
      simp only [countP] at hrec ⊢
      simp only [List.set, List.filter_cons]
      by_cases hqx : q x <;> simp [hqx] <;> omega

theorem countP_set_both_false (q : Phase → Bool) {l : List Phase} {i : Nat}
    (a b : Phase) (h : l[i]? = some a) (ha : q a = false) (hb : q b = false) :
    countP q (l.set i b) = countP q l := by
  have hc := countP_set q l i a b h
  rw [ha, hb] at hc
  simpa using hc

theorem countP_set_enter (q : Phase → Bool) {l : List Phase} {i : Nat}
    (a b : Phase) (h : l[i]? = some a) (ha : q a = false) (hb : q b = true) :
    countP q (l.set i b) = countP q l + 1 := by
  have hc := countP_set q l i a b h
  rw [ha, hb] at hc
  simpa using hc

theorem countP_set_stay (q : Phase → Bool) {l : List Phase} {i : Nat}
    (a b : Phase) (h : l[i]? = some a) (ha : q a = true) (hb : q b = true) :
    countP q (l.set i b) = countP q l := by
  have hc := countP_set q l i a b h
  rw [ha, hb] at hc
  simpa using hc

theorem countP_map_pending (q : Phase → Bool) (hq : q .pending = false)
    (l : List (List UInt8)) : countP q (l.map (fun _ => Phase.pending)) = 0 := by
  induction l with
  | nil => simp [countP]
  | cons x xs ih =>
    simp only [List.map_cons, countP, List.filter_cons, hq] at ih ⊢
    simpa using ih

theorem inv_init (P : BatchParams) : Inv P (initState P) := by
  refine ⟨by simp [initState], ?_, ?_, ?_, by simp [initState], ?_⟩
  · simp only [initState]
    exact (countP_map_pending isSucc rfl P.files).symm
  · simp only [initState]
    exact (countP_map_pending isFail rfl P.files).symm
  · simp only [initState]
    exact (countP_map_pending isFin rfl P.files).symm
  · intro i p o hp ho
    simp only [initState, List.getElem?_map] at hp
    cases hf : P.files[i]? with
    | none => simp [hf] at hp
    | some f =>
      simp only [hf, Option.map_some'] at hp
      have hpnd : p = Phase.pending := by
        cases hp
        rfl
      subst hpnd
      simp [phaseOutcome] at ho

theorem index_lt_of_getElem? {l : List Phase} {i : Nat} {p : Phase}
    (h : l[i]? = some p) : i < l.length := by
  by_contra hlt
  rw [List.getElem?_eq_none (by omega)] at h
  exact Option.noConfusion h

theorem outcomes_set (P : BatchParams) {s : BatchState} (hs : Inv P s)
    {i : Nat} {a : Phase} (b : Phase) (hp : s.phases[i]? = some a)
    (hb : ∀ o : Bool, phaseOutcome b = some o → ∃ f, P.files[i]? = some f ∧ convOk P f = o) :
    ∀ (j : Nat) (p : Phase) (o : Bool), (s.phases.set i b)[j]? = some p →
      phaseOutcome p = some o → ∃ f, P.files[j]? = some f ∧ convOk P f = o := by
  intro j p o hj ho
  by_cases hij : i = j
  · subst hij
    rw [List.getElem?_set_self (index_lt_of_getElem? hp)] at hj
    cases hj
    exact hb o ho
  · rw [List.getElem?_set_ne hij] at hj
    exact hs.outcomes j p o hj ho

theorem inv_step (P : BatchParams) {s t : BatchState}
    (hs : Inv P s) (hstep : BatchStep P s t) : Inv P t := by
  cases hstep with
  | convert i f s hp hf =>
    refine ⟨by simpa using hs.len, ?_, ?_, ?_, by simpa using hs.events_eq, ?_⟩
    · show s.succeeded = countP isSucc (s.phases.set i (.converted (convOk P f)))
      rw [hs.succ_eq,
        countP_set_both_false isSucc _ _ hp rfl (by cases convOk P f <;> rfl)]
    · show s.failed = countP isFail (s.phases.set i (.converted (convOk P f)))
      rw [hs.fail_eq,
        countP_set_both_false isFail _ _ hp rfl (by cases convOk P f <;> rfl)]
    · show s.processed = countP isFin (s.phases.set i (.converted (convOk P f)))
      rw [hs.proc_eq,
        countP_set_both_false isFin _ _ hp rfl (by cases convOk P f <;> rfl)]
    · exact outcomes_set P hs _ hp (fun o ho => by
        simp only [phaseOutcome, Option.some.injEq] at ho
        exact ⟨f, hf, ho⟩)
  | tally i o s hp =>
    cases o with
    | false =>
      refine ⟨by simpa using hs.len, ?_, ?_, ?_, by simpa using hs.events_eq, ?_⟩
      · show s.succeeded = countP isSucc (s.phases.set i (.tallied false))
        rw [hs.succ_eq, countP_set_both_false isSucc _ (Phase.tallied false) hp rfl rfl]
      · show s.failed + 1 = countP isFail (s.phases.set i (.tallied false))
        rw [hs.fail_eq, countP_set_enter isFail _ (Phase.tallied false) hp rfl rfl]
      · show s.processed = countP isFin (s.phases.set i (.tallied false))
        rw [hs.proc_eq, countP_set_both_false isFin _ (Phase.tallied false) hp rfl rfl]
      · exact outcomes_set P hs _ hp (fun o' ho => by
          simp only [phaseOutcome, Option.some.injEq] at ho
          subst ho
          exact hs.outcomes i _ false hp rfl)
    | true =>
      refine ⟨by simpa using hs.len, ?_, ?_, ?_, by simpa using hs.events_eq, ?_⟩
      · show s.succeeded + 1 = countP isSucc (s.phases.set i (.tallied true))
        rw [hs.succ_eq, countP_set_enter isSucc _ (Phase.tallied true) hp rfl rfl]
      · show s.failed = countP isFail (s.phases.set i (.tallied true))
        rw [hs.fail_eq, countP_set_both_false isFail _ (Phase.tallied true) hp rfl rfl]
      · show s.processed = countP isFin (s.phases.set i (.tallied true))
        rw [hs.proc_eq, countP_set_both_false isFin _ (Phase.tallied true) hp rfl rfl]
      · exact outcomes_set P hs _ hp (fun o' ho => by
          simp only [phaseOutcome, Option.some.injEq] at ho
          subst ho
          exact hs.outcomes i _ true hp rfl)
  | report i o s hp =>
    cases o with
    | false =>
      refine ⟨by simpa using hs.len, ?_, ?_, ?_, ?_, ?_⟩
      · show s.succeeded = countP isSucc (s.phases.set i (.finished false))
        rw [hs.succ_eq, countP_set_both_false isSucc _ (Phase.finished false) hp rfl rfl]
      · show s.failed = countP isFail (s.phases.set i (.finished false))
        rw [hs.fail_eq, countP_set_stay isFail _ (Phase.finished false) hp rfl rfl]
      · show s.processed + 1 = countP isFin (s.phases.set i (.finished false))
        rw [hs.proc_eq, countP_set_enter isFin _ (Phase.finished false) hp rfl rfl]
      · show s.events ++ [(s.processed + 1, P.files.length)]
          = (List.range (s.processed + 1)).map (fun k => (k + 1, P.files.length))
        rw [hs.events_eq, List.range_succ, List.map_append]
        simp
      · exact outcomes_set P hs _ hp (fun o' ho => by
          simp only [phaseOutcome, Option.some.injEq] at ho
          subst ho
          exact hs.outcomes i _ false hp rfl)
    | true =>
      refine ⟨by simpa using hs.len, ?_, ?_, ?_, ?_, ?_⟩
      · show s.succeeded = countP isSucc (s.phases.set i (.finished true))
        rw [hs.succ_eq, countP_set_stay isSucc _ (Phase.finished true) hp rfl rfl]
      · show s.failed = countP isFail (s.phases.set i (.finished true))
        rw [hs.fail_eq, countP_set_both_false isFail _ (Phase.finished true) hp rfl rfl]
      · show s.processed + 1 = countP isFin (s.phases.set i (.finished true))
        rw [hs.proc_eq, countP_set_enter isFin _ (Phase.finished true) hp rfl rfl]
      · show s.events ++ [(s.processed + 1, P.files.length)]
          = (List.range (s.processed + 1)).map (fun k => (k + 1, P.files.length))
        rw [hs.events_eq, List.range_succ, List.map_append]
        simp
      · exact outcomes_set P hs _ hp (fun o' ho => by
          simp only [phaseOutcome, Option.some.injEq] at ho
          subst ho
          exact hs.outcomes i _ true hp rfl)

theorem reach_inv (P : BatchParams) {s : BatchState}
    (h : Reach P (initState P) s) : Inv P s := by
  induction h with
  | refl => exact inv_init P
  | tail hpre hstep ih => exact inv_step P ih hstep

theorem countP_succ_fail_of_finished (l : List Phase)
    (hfin : ∀ p ∈ l, ∃ o, p = Phase.finished o) :
    countP isSucc l + countP isFail l = l.length := by
  induction l with
  | nil => simp [countP]
  | cons x xs ih =>
    obtain ⟨o, rfl⟩ := hfin x (List.mem_cons_self x xs)
    have hx := ih (fun p hp => hfin p (List.mem_cons_of_mem _ hp))
    rw [countP_cons, countP_cons, List.length_cons]
    cases o with
    | false =>
      rw [show isSucc (Phase.finished false) = false from rfl,
        show isFail (Phase.finished false) = true from rfl]
      simp only [Bool.false_eq_true, if_false, if_true]
      omega
    | true =>
      rw [show isSucc (Phase.finished true) = true from rfl,
        show isFail (Phase.finished true) = false from rfl]
      simp only [Bool.false_eq_true, if_false, if_true]
      omega

theorem countP_fin_of_finished (l : List Phase)
    (hfin : ∀ p ∈ l, ∃ o, p = Phase.finished o) :
    countP isFin l = l.length := by
  induction l with
  | nil => simp [countP]
  | cons x xs ih =>
    obtain ⟨o, rfl⟩ := hfin x (List.mem_cons_self x xs)
    have hx := ih (fun p hp => hfin p (List.mem_cons_of_mem _ hp))
    rw [countP_cons, List.length_cons]
    rw [show isFin (Phase.finished o) = true from by cases o <;> rfl]
    simp only [if_true]
    omega

theorem countP_eq_zero_of_false (q : Phase → Bool) (l : List Phase)
    (h : ∀ p ∈ l, q p = false) : countP q l = 0 := by
  induction l with
  | nil => simp [countP]
  | cons x xs ih =>
    rw [countP_cons, h x (List.mem_cons_self x xs)]
    simp only [Bool.false_eq_true, if_false]
    simpa using ih (fun p hp => h p (List.mem_cons_of_mem _ hp))

theorem convOk_false_of_not_exists (P : BatchParams) (f : List UInt8)
    (h : P.env.fileExists f = false) : convOk P f = false := by
  simp [convOk, convertSingleFile, h]

theorem countP_fin_le (l : List Phase) :
    countP isFin l ≤ countP isSucc l + countP isFail l := by
  induction l with
  | nil => simp [countP]
  | cons x xs ih =>
    rw [countP_cons, countP_cons, countP_cons]
    have hx : (if isFin x then 1 else 0)
        ≤ (if isSucc x then 1 else 0) + (if isFail x then 1 else 0) := by
      cases x with
      | pending => decide
      | converted o => cases o <;> decide
      | tallied o => cases o <;> decide
      | finished o => cases o <;> decide
    omega

theorem no_step_of_nil_phases (P : BatchParams) {s t : BatchState}
    (h : BatchStep P s t) (hnil : s.phases = []) : False := by
  cases h with
  | convert i f s hp hf => rw [hnil] at hp; simp at hp
  | tally i o s hp => rw [hnil] at hp; simp at hp
  | report i o s hp => rw [hnil] at hp; simp at hp

theorem reach_empty_eq (P : BatchParams) (hP : P.files = []) {s : BatchState}
    (h : Reach P (initState P) s) : s = initState P := by
  induction h with
  | refl => rfl
  | tail hpre hstep ih =>
    subst ih
    exact (no_step_of_nil_phases P hstep (by simp [initState, hP])).elim

theorem exReach : Reach exParams (initState exParams) exFinal := by
  refine Relation.ReflTransGen.head
    (BatchStep.convert 0 (ascii "missing.mp4") (initState exParams) rfl rfl) ?_
  refine Relation.ReflTransGen.head
    (BatchStep.tally 0 false ⟨[.converted false], 0, 0, 0, [], []⟩ rfl) ?_
  refine Relation.ReflTransGen.head
    (BatchStep.report 0 false ⟨[.tallied false], 0, 1, 0, [], []⟩ rfl) ?_
  exact Relation.ReflTransGen.refl

theorem exFinal_allFinished : AllFinished exFinal := by
  intro p hp
  simp only [exFinal, List.mem_singleton] at hp
  exact ⟨false, hp⟩

/-! ## Claim theorems: the batch driver -/
/-- **C1.** For every list of input paths, `batch_convert` catches every
per-item conversion failure, counts it, and never aborts the batch (failures
are recorded as counted outcomes, not propagated — the transition system has
no aborting transition); once all items have completed, the returned pair
satisfies `succeeded + failed = files.length`, and if every item fails (for
instance because every path is nonexistent) the result is
`(0, files.length)`. -/
theorem batch_convert_tally_invariant (P : BatchParams) (s : BatchState)
    (hreach : Reach P (initState P) s) (hfin : AllFinished s) :
    s.succeeded + s.failed = P.files.length
    ∧ ((∀ f ∈ P.files, P.env.fileExists f = false) →
        s.succeeded = 0 ∧ s.failed = P.files.length) := by
  have hinv := reach_inv P hreach
  have hsplit := countP_succ_fail_of_finished s.phases hfin
  have hlen := hinv.len
  constructor
  · rw [hinv.succ_eq, hinv.fail_eq]
    omega
  · intro hall
    have hzero : countP isSucc s.phases = 0 := by
      apply countP_eq_zero_of_false
      intro p hp
      obtain ⟨i, hi⟩ := List.getElem?_of_mem hp
      obtain ⟨o, rfl⟩ := hfin p hp
      obtain ⟨f, hf, hok⟩ := hinv.outcomes i _ o hi rfl
      have hmem : f ∈ P.files := List.mem_iff_getElem?.mpr ⟨i, hf⟩
      have : o = false := by
        rw [← hok]
        exact convOk_false_of_not_exists P f (hall f hmem)
      subst this
      rfl
    refine ⟨by rw [hinv.succ_eq]; exact hzero, ?_⟩
    rw [hinv.fail_eq]
    omega

/-- Witness for C1: a concrete one-file batch over a nonexistent path runs to
completion with tally `(0, 1)`. -/
theorem batch_convert_tally_invariant_witness :
    exFinal.succeeded + exFinal.failed = exParams.files.length
    ∧ ((∀ f ∈ exParams.files, exParams.env.fileExists f = false) →
        exFinal.succeeded = 0 ∧ exFinal.failed = exParams.files.length) :=
  batch_convert_tally_invariant exParams exFinal exReach exFinal_allFinished

/-- **C2.** For every batch of `N` files, once all items have completed the
progress callback has been invoked exactly `N` times, the `k`-th invocation
(serialized: the callback runs under the progress-counter mutex) carrying
`current = k` — strictly increasing from 1 to `N` with nothing skipped or
repeated — and `total = N` constantly. -/
theorem batch_convert_progress_events (P : BatchParams) (s : BatchState)
    (hreach : Reach P (initState P) s) (hfin : AllFinished s) :
    s.events = (List.range P.files.length).map (fun k => (k + 1, P.files.length))
    ∧ s.events.length = P.files.length := by
  have hinv := reach_inv P hreach
  have hproc : s.processed = P.files.length := by
    rw [hinv.proc_eq, countP_fin_of_finished s.phases hfin, hinv.len]
  refine ⟨?_, ?_⟩
  · rw [hinv.events_eq, hproc]
  · rw [hinv.events_eq, hproc]
    simp

/-- Witness for C2: the concrete one-file batch delivers exactly the event
list `[(1, 1)]`. -/
theorem batch_convert_progress_events_witness :
    exFinal.events
        = (List.range exParams.files.length).map (fun k => (k + 1, exParams.files.length))
    ∧ exFinal.events.length = exParams.files.length :=
  batch_convert_progress_events exParams exFinal exReach exFinal_allFinished

/-- **C3, counterexample.** The claim asserts that no observer can ever see a
torn `(processed, succeeded, failed)` triple and that
`processed = succeeded + failed` holds at every point after each worker
completes one item.  Because the code guards the three counters with three
separate mutexes and increments the category counter strictly before the
processed counter, an interleaving reachable in the real scheduler produces,
immediately after task 0 has completed its item, the torn triple
`(processed, succeeded, failed) = (1, 0, 2)` with `1 ≠ 0 + 2`. -/
theorem batch_tally_torn_cex :
    Reach cexParams (initState cexParams) tornState
    ∧ tornState.phases[0]? = some (.finished false)
    ∧ tornState.processed ≠ tornState.succeeded + tornState.failed := by
  refine ⟨?_, rfl, by decide⟩
  refine Relation.ReflTransGen.head
    (BatchStep.convert 0 (ascii "a.mp4") (initState cexParams) rfl rfl) ?_
  refine Relation.ReflTransGen.head
    (BatchStep.convert 1 (ascii "b.mp4")
      ⟨[.converted false, .pending], 0, 0, 0, [], []⟩ rfl rfl) ?_
  refine Relation.ReflTransGen.head
    (BatchStep.tally 0 false
      ⟨[.converted false, .converted false], 0, 0, 0, [], []⟩ rfl) ?_
  refine Relation.ReflTransGen.head
    (BatchStep.tally 1 false
      ⟨[.tallied false, .converted false], 0, 1, 0, [], []⟩ rfl) ?_
  refine Relation.ReflTransGen.head
    (BatchStep.report 0 false
      ⟨[.tallied false, .tallied false], 0, 2, 0, [], []⟩ rfl) ?_
  exact Relation.ReflTransGen.refl

/-- **C3, amended.** What the three separately mutex-guarded counters do
guarantee: in every reachable state `processed ≤ succeeded + failed` (the
category counter is incremented before the processed counter), the equality
`processed = succeeded + failed` holds once all items have completed (in
particular when `batch_convert` reads the counters to build its return
value), and every individual counter is monotonically non-decreasing across
every atomic step. -/
theorem batch_tally_mutex_protected (P : BatchParams) (s t : BatchState)
    (hreach : Reach P (initState P) s) :
    s.processed ≤ s.succeeded + s.failed
    ∧ (AllFinished s → s.processed = s.succeeded + s.failed)
    ∧ (BatchStep P s t →
        s.processed ≤ t.processed ∧ s.succeeded ≤ t.succeeded ∧ s.failed ≤ t.failed) := by
  have hinv := reach_inv P hreach
  refine ⟨?_, ?_, ?_⟩
  · rw [hinv.proc_eq, hinv.succ_eq, hinv.fail_eq]
    exact countP_fin_le s.phases
  · intro hfin
    rw [hinv.proc_eq, hinv.succ_eq, hinv.fail_eq,
      countP_fin_of_finished s.phases hfin, countP_succ_fail_of_finished s.phases hfin]
  · intro hstep
    cases hstep with
    | convert i f s hp hf => exact ⟨Nat.le_refl _, Nat.le_refl _, Nat.le_refl _⟩
    | tally i o s hp =>
      refine ⟨Nat.le_refl _, ?_, ?_⟩ <;> cases o <;> simp
    | report i o s hp => exact ⟨Nat.le_succ _, Nat.le_refl _, Nat.le_refl _⟩

/-- Witness for the amended C3 at a concrete reachable state. -/
theorem batch_tally_mutex_protected_witness :
    exFinal.processed ≤ exFinal.succeeded + exFinal.failed
    ∧ (AllFinished exFinal → exFinal.processed = exFinal.succeeded + exFinal.failed)
    ∧ (BatchStep exParams exFinal exFinal →
        exFinal.processed ≤ exFinal.processed ∧ exFinal.succeeded ≤ exFinal.succeeded
        ∧ exFinal.failed ≤ exFinal.failed) :=
  batch_tally_mutex_protected exParams exFinal exFinal exReach

/-- **C6.** `batch_convert` applied to an empty file list returns `(0, 0)`,
invokes the progress callback zero times, and performs no child-process
launch at all — in particular the `ffmpeg` availability probe never runs. -/
theorem batch_convert_empty (P : BatchParams) (s : BatchState) (hP : P.files = [])
    (hreach : Reach P (initState P) s) :
    s.succeeded = 0 ∧ s.failed = 0 ∧ s.events = [] ∧ s.effects = []
    ∧ Event.probe ∉ s.effects := by
  have hs := reach_empty_eq P hP hreach
  subst hs
  exact ⟨rfl, rfl, rfl, rfl, by simp [initState]⟩

/-- Witness for C6 at the concrete empty batch. -/
theorem batch_convert_empty_witness :
    (initState emptyParams).succeeded = 0 ∧ (initState emptyParams).failed = 0
    ∧ (initState emptyParams).events = [] ∧ (initState emptyParams).effects = []
    ∧ Event.probe ∉ (initState emptyParams).effects :=
  batch_convert_empty emptyParams (initState emptyParams) rfl Relation.ReflTransGen.refl

/-! ## Properties of the path operations -/
theorem dropWhile_all_append (q : UInt8 → Bool) (xs ys : List UInt8)
    (h : ∀ b ∈ xs, q b = true) : (xs ++ ys).dropWhile q = ys.dropWhile q := by
  induction xs with
  | nil => simp
  | cons a as ih =>
    rw [List.cons_append, List.dropWhile_cons, h a (List.mem_cons_self a as)]
    simp only [if_true]
    exact ih (fun b hb => h b (List.mem_cons_of_mem a hb))

theorem takeWhile_all_append_stop (q : UInt8 → Bool) (xs : List UInt8) (y : UInt8)
    (ys : List UInt8) (h : ∀ b ∈ xs, q b = true) (hy : q y = false) :
    (xs ++ y :: ys).takeWhile q = xs := by
  induction xs with
  | nil => simp [List.takeWhile_cons, hy]
  | cons a as ih =>
    rw [List.cons_append, List.takeWhile_cons, h a (List.mem_cons_self a as)]
    simp only [if_true]
    rw [ih (fun b hb => h b (List.mem_cons_of_mem a hb))]

theorem extSplit_append_dot (s e : List UInt8) (hs : s ≠ []) (he : DOT ∉ e) :
    extSplit (s ++ DOT :: e) = (s, some e) := by
  unfold extSplit
  have hrev : (s ++ DOT :: e).reverse = e.reverse ++ DOT :: s.reverse := by simp
  have hall : ∀ b ∈ e.reverse, (fun b => decide (b ≠ DOT)) b = true := by
    intro b hb
    simp only [decide_eq_true_iff]
    intro hbd
    exact he (hbd ▸ List.mem_reverse.mp hb)
  have hdot : decide (DOT ≠ DOT) = false := by simp
  rw [hrev, dropWhile_all_append _ _ _ hall, List.dropWhile_cons, hdot]
  simp only [Bool.false_eq_true, if_false]
  cases hsr : s.reverse with
  | nil => exact absurd (by simpa using congrArg List.reverse hsr) hs
  | cons a as =>
    rw [takeWhile_all_append_stop _ _ _ _ hall hdot]
    simp only [List.reverse_reverse, Prod.mk.injEq, Option.some.injEq]
    constructor
    · have := congrArg List.reverse hsr
      simpa using this.symm
    · trivial

theorem extSplit_no_dot (n : List UInt8) (hn : DOT ∉ n) : extSplit n = (n, none) := by
  unfold extSplit
  have : n.reverse.dropWhile (fun b => decide (b ≠ DOT)) = [] := by
    rw [List.dropWhile_eq_nil_iff]
    intro b hb
    simp only [decide_eq_true_iff]
    intro hbd
    exact hn (hbd ▸ List.mem_reverse.mp hb)
  rw [this]

theorem extSplit_stem_sub (n : List UInt8) :
    (extSplit n).1 = n ∨ (∀ b ∈ (extSplit n).1, b ∈ n) ∧ (extSplit n).1 ≠ [] := by
  unfold extSplit
  cases hd : n.reverse.dropWhile (fun b => decide (b ≠ DOT)) with
  | nil => left; rfl
  | cons d rest =>
    cases rest with
    | nil => left; rfl
    | cons d2 rest2 =>
      right
      constructor
      · intro b hb
        simp only at hb
        have hbr : b ∈ d2 :: rest2 := List.mem_reverse.mp hb
        have : b ∈ n.reverse.dropWhile (fun b => decide (b ≠ DOT)) := by
          rw [hd]
          exact List.mem_cons_of_mem d hbr
        exact List.mem_reverse.mp ((List.dropWhile_sublist _).mem this)
      · simp

theorem eq_dropLast_append_of_getLast? {α : Type} (l : List α) (a : α)
    (h : l.getLast? = some a) : l = l.dropLast ++ [a] := by
  have hne : l ≠ [] := by
    intro hl
    subst hl
    simp at h
  have hg : l.getLast hne = a := by
    have := List.getLast?_eq_getLast l hne
    rw [this] at h
    exact Option.some.inj h
  rw [← hg]
  exact (List.dropLast_append_getLast hne).symm

theorem fileName_pathJoin (dir name : List UInt8) (hsep : SEP ∉ name)
    (h0 : name ≠ []) (h1 : name ≠ [DOT]) (h2 : name ≠ [DOT, DOT]) :
    fileName (pathJoin dir name) = some name := by
  have hP : decide (name ≠ [] ∧ name ≠ [DOT]) = true := by
    simp [h0, h1]
  have hsplit_name : splitSep name = [name] := splitSep_no_sep name hsep
  have hfilter_name : (splitSep name).filter (fun c => decide (c ≠ [] ∧ c ≠ [DOT]))
      = [name] := by
    rw [hsplit_name, List.filter_cons, hP]
    simp
  have hcomp : (pathComponents (pathJoin dir name)).getLast? = some name := by
    unfold pathJoin
    split
    · rename_i hhead
      exfalso
      apply hsep
      cases name with
      | nil => simp at hhead
      | cons a as =>
        simp only [List.head?_cons, Option.some.injEq] at hhead
        rw [hhead]
        exact List.mem_cons_self SEP as
    · split
      · unfold pathComponents
        rw [hfilter_name]
        rfl
      · split
        · rename_i hne hlast
          have hdec := eq_dropLast_append_of_getLast? dir SEP hlast
          rw [hdec]
          unfold pathComponents
          rw [List.append_assoc, List.singleton_append, splitSep_append_sep,
            List.filter_append, hfilter_name]
          exact List.getLast?_append_of_ne_nil _ (by simp)
        · unfold pathComponents
          rw [splitSep_append_sep, List.filter_append, hfilter_name]
          exact List.getLast?_append_of_ne_nil _ (by simp)
  unfold fileName
  rw [hcomp]
  simp [h2]

theorem fileName_props (p n : List UInt8) (h : fileName p = some n) :
    n ≠ [] ∧ n ≠ [DOT] ∧ SEP ∉ n := by
  unfold fileName at h
  cases hg : (pathComponents p).getLast? with
  | none => rw [hg] at h; simp at h
  | some c =>
    rw [hg] at h
    change (if c = [DOT, DOT] then none else some c) = some n at h
    by_cases hc : c = [DOT, DOT]
    · rw [if_pos hc] at h
      simp at h
    · rw [if_neg hc] at h
      have hcn : c = n := Option.some.inj h
      subst hcn
      have hmem : c ∈ pathComponents p := by
        rw [eq_dropLast_append_of_getLast? _ _ hg]
        simp
      have hpred := List.of_mem_filter hmem
      simp only [decide_eq_true_iff] at hpred
      refine ⟨hpred.1, hpred.2, ?_⟩
      exact sep_not_mem_of_mem_splitSep p c (List.mem_of_mem_filter hmem)

theorem feed_out_state (st : Option Pend) (x : UInt8) :
    (feed st x).1 ≠ [] ∨ (feed st x).2.1.isSome = true := by
  cases st with
  | none =>
    show (startByte x).1 ≠ [] ∨ (startByte x).2.1.isSome = true
    unfold startByte
    split_ifs <;> simp [REP]
  | some p =>
    simp only [feed]
    split_ifs <;> simp [REP]

theorem lossyAux_ne_nil (l : List UInt8) :
    ∀ st : Option Pend, (st.isSome = true ∨ l ≠ []) → lossyAux st l ≠ [] := by
  induction l with
  | nil =>
    intro st h
    cases st with
    | none => simp at h
    | some p => simp [lossyAux, REP]
  | cons x rest ih =>
    intro st _ hc
    simp only [lossyAux] at hc
    obtain ⟨h1, h2⟩ := List.append_eq_nil.mp hc
    rcases feed_out_state st x with ho | hst
    · exact ho h1
    · exact ih (feed st x).2.1 (Or.inl hst) h2

theorem utf8Lossy_ne_nil (l : List UInt8) (h : l ≠ []) : utf8Lossy l ≠ [] :=
  lossyAux_ne_nil l none (Or.inr h)

theorem startByte_sep_free (x : UInt8) (hx : x ≠ SEP) :
    SEP ∉ (startByte x).1 ∧ noSepSt (startByte x).2.1 := by
  unfold startByte
  split_ifs <;>
    simp_all [noSepSt, stBytes, REP] <;>
    first
      | exact fun hmem => hx hmem.symm
      | decide

theorem feed_sep_free (st : Option Pend) (x : UInt8) (hx : x ≠ SEP)
    (hst : noSepSt st) : SEP ∉ (feed st x).1 ∧ noSepSt (feed st x).2.1 := by
  cases st with
  | none => exact startByte_sep_free x hx
  | some p =>
    have hbytes : ∀ b ∈ p.bytes, b ≠ SEP := hst
    simp only [feed]
    split_ifs with h1 h2
    · refine ⟨?_, by simp [noSepSt, stBytes]⟩
      intro hmem
      rcases List.mem_append.mp hmem with hb | hb
      · exact hbytes SEP hb rfl
      · rw [List.mem_singleton] at hb
        exact hx hb.symm
    · refine ⟨by simp, ?_⟩
      intro b hb
      simp only [stBytes] at hb
      rcases List.mem_append.mp hb with hb' | hb'
      · exact hbytes b hb'
      · rw [List.mem_singleton] at hb'
        rw [hb']
        exact hx
    · obtain ⟨hout, hstate⟩ := startByte_sep_free x hx
      refine ⟨?_, hstate⟩
      intro hmem
      rcases List.mem_append.mp hmem with hb | hb
      · revert hb
        decide
      · exact hout hb

theorem lossyAux_sep_free (l : List UInt8) :
    ∀ st : Option Pend, SEP ∉ l → noSepSt st → SEP ∉ lossyAux st l := by
  induction l with
  | nil =>
    intro st _ _
    cases st with
    | none => simp [lossyAux]
    | some p =>
      simp only [lossyAux]
      decide
  | cons x rest ih =>
    intro st hl hst
    have hx : x ≠ SEP := fun h => hl (h ▸ List.mem_cons_self x rest)
    have hrest : SEP ∉ rest := fun h => hl (List.mem_cons_of_mem x h)
    obtain ⟨hout, hstate⟩ := feed_sep_free st x hx hst
    simp only [lossyAux]
    intro hmem
    rcases List.mem_append.mp hmem with hb | hb
    · exact hout hb
    · exact ih (feed st x).2.1 hrest hstate hb

theorem utf8Lossy_sep_free (l : List UInt8) (h : SEP ∉ l) : SEP ∉ utf8Lossy l :=
  lossyAux_sep_free l none h (by intro b hb; simp [stBytes] at hb)

theorem pathExtension_join_stem_ext (dir stem ext : List UInt8)
    (hstem_ne : stem ≠ []) (hsep : SEP ∉ stem) (hsep_e : SEP ∉ ext)
    (hdot_e : DOT ∉ ext) (hext_ne : ext ≠ []) :
    pathExtension (pathJoin dir (stem ++ DOT :: ext)) = some ext := by
  have hsep_n : SEP ∉ stem ++ DOT :: ext := by
    intro hmem
    rcases List.mem_append.mp hmem with hb | hb
    · exact hsep hb
    · rcases List.mem_cons.mp hb with hb' | hb'
      · exact absurd hb' (by decide)
      · exact hsep_e hb'
  have hlen : (stem ++ DOT :: ext).length ≥ 3 := by
    have h1 : 1 ≤ stem.length := List.length_pos.mpr hstem_ne
    have h2 : 1 ≤ ext.length := List.length_pos.mpr hext_ne
    simp only [List.length_append, List.length_cons]
    omega
  have hname := fileName_pathJoin dir (stem ++ DOT :: ext) hsep_n
    (by intro hcontr; rw [hcontr] at hlen; simp at hlen)
    (by intro hcontr; rw [hcontr] at hlen; simp at hlen)
    (by intro hcontr; rw [hcontr] at hlen; simp at hlen)
  unfold pathExtension
  rw [hname]
  show (extSplit (stem ++ DOT :: ext)).2 = some ext
  rw [extSplit_append_dot stem ext hstem_ne hdot_e]

theorem fileStem_props (p stem : List UInt8) (h : fileStem p = some stem) :
    stem ≠ [] ∧ SEP ∉ stem := by
  unfold fileStem at h
  cases hn : fileName p with
  | none => rw [hn] at h; simp at h
  | some n =>
    rw [hn] at h
    simp only [Option.map_some', Option.some.injEq] at h
    obtain ⟨hn0, _, hnsep⟩ := fileName_props p n hn
    rcases extSplit_stem_sub n with hcase | ⟨hsub, hne⟩
    · rw [h] at hcase
      subst hcase
      exact ⟨hn0, hnsep⟩
    · rw [h] at hsub hne
      exact ⟨hne, fun hmem => hnsep (hsub SEP hmem)⟩

theorem format_extension_facts (format : AudioFormat) :
    SEP ∉ ascii format.extension ∧ DOT ∉ ascii format.extension
      ∧ ascii format.extension ≠ [] := by
  cases format <;> exact ⟨by decide, by decide, by decide⟩

/-! ## Claim theorem: output-path resolution -/
/-- **C7.** Output-path resolution is a pure deterministic function (it is a
Lean function of its three arguments): for every input path with an
extractable file-name stem it returns exactly
`outputDir/<stem>.<format extension>` — the stem being the extracted stem as
a string, i.e. after `to_string_lossy`, which is the stem itself whenever the
stem is valid UTF-8 — and the resulting path's extension is exactly the
format's extension; for every input without an extractable stem it fails
with `InvalidPath`. -/
theorem build_output_path_spec (input dir : List UInt8) (format : AudioFormat) :
    (fileStem input = none → buildOutputPath input dir format = .error .invalidPath)
    ∧ (∀ stem, fileStem input = some stem →
        buildOutputPath input dir format
            = .ok (pathJoin dir (utf8Lossy stem ++ DOT :: ascii format.extension))
        ∧ pathExtension (pathJoin dir (utf8Lossy stem ++ DOT :: ascii format.extension))
            = some (ascii format.extension)
        ∧ (validUtf8 stem = true →
            buildOutputPath input dir format
              = .ok (pathJoin dir (stem ++ DOT :: ascii format.extension)))) := by
  constructor
  · intro hnone
    unfold buildOutputPath
    rw [hnone]
  · intro stem hstem
    obtain ⟨hne, hsep⟩ := fileStem_props input stem hstem
    obtain ⟨hesep, hedot, hene⟩ := format_extension_facts format
    refine ⟨?_, ?_, ?_⟩
    · unfold buildOutputPath
      rw [hstem]
    · exact pathExtension_join_stem_ext dir (utf8Lossy stem) (ascii format.extension)
        (utf8Lossy_ne_nil stem hne) (utf8Lossy_sep_free stem hsep) hesep hedot hene
    · intro hvalid
      unfold buildOutputPath
      rw [hstem]
      show Except.ok (pathJoin dir (utf8Lossy stem ++ DOT :: ascii format.extension))
        = Except.ok (pathJoin dir (stem ++ DOT :: ascii format.extension))
      rw [utf8Lossy_of_valid stem hvalid]

/-- Witness for C7 at the concrete input `videos/clip.mp4`, output directory
`out`, MP3: the resolved path is `out/clip.mp3`. -/
theorem build_output_path_spec_witness :
    fileStem (ascii "videos/clip.mp4") = some (ascii "clip")
    ∧ buildOutputPath (ascii "videos/clip.mp4") (ascii "out") AudioFormat.mp3
        = .ok (pathJoin (ascii "out") (utf8Lossy (ascii "clip") ++ DOT :: ascii "mp3"))
    ∧ pathExtension (pathJoin (ascii "out")
        (utf8Lossy (ascii "clip") ++ DOT :: ascii "mp3")) = some (ascii "mp3")
    ∧ buildOutputPath (ascii "videos/clip.mp4") (ascii "out") AudioFormat.mp3
        = .ok (ascii "out/clip.mp3") := by
  have h := (build_output_path_spec (ascii "videos/clip.mp4") (ascii "out")
    AudioFormat.mp3).2 (ascii "clip") (by rfl)
  exact ⟨by rfl, h.1, h.2.1, by rw [h.2.2 (by rfl)]; rfl⟩

/-! ## Claim theorems: tool invocation and path validation -/
/-- **C8.** Whenever the conversion subprocess is launched (both paths
convert to UTF-8), its argument vector has exactly the shape
`[overwrite flag] ++ [quiet/error-only logging flags] ++ ["-i", input] ++
["-vn"] ++ (format-specific arguments from the format catalog) ++ [output]`,
in that order, and exactly one launch happens. -/
theorem execute_ffmpeg_argv_shape (env : Env) (sourceFile outputPath : List UInt8)
    (format : AudioFormat) (hs : validUtf8 sourceFile = true)
    (ho : validUtf8 outputPath = true) :
    (executeFfmpegConversion env sourceFile outputPath format).2
      = [Event.run ([ascii "-y"]
          ++ [ascii "-hide_banner", ascii "-loglevel", ascii "error"]
          ++ [ascii "-i", sourceFile] ++ [ascii "-vn"]
          ++ format.ffmpegArgs.map ascii ++ [outputPath])] := by
  simp only [executeFfmpegConversion, osToStr, hs, ho, if_true]
  cases env.runResult (ffmpegArgv sourceFile outputPath format) with
  | none => simp [ffmpegArgv]
  | some b => cases b <;> simp [ffmpegArgv]

/-- Witness for C8: a concrete invocation for `in.mp4 → out/in.mp3` as MP3. -/
theorem execute_ffmpeg_argv_shape_witness :
    validUtf8 (ascii "in.mp4") = true
    ∧ (executeFfmpegConversion exEnv (ascii "in.mp4") (ascii "out/in.mp3")
        AudioFormat.mp3).2
      = [Event.run ([ascii "-y"]
          ++ [ascii "-hide_banner", ascii "-loglevel", ascii "error"]
          ++ [ascii "-i", ascii "in.mp4"] ++ [ascii "-vn"]
          ++ AudioFormat.mp3.ffmpegArgs.map ascii ++ [ascii "out/in.mp3"])] :=
  ⟨by decide, execute_ffmpeg_argv_shape exEnv (ascii "in.mp4") (ascii "out/in.mp3")
    AudioFormat.mp3 (by decide) (by decide)⟩

/-- **C10.** For every existing input file whose path — or whose resolved
output path — is not valid UTF-8, `convert_single_file` fails with
`InvalidPath` even when the tool is available, and the conversion subprocess
is never launched with that path: the only child process spawned is the
`ffmpeg -version` availability probe, which runs before the path check. -/
theorem convert_single_rejects_non_utf8 (env : Env)
    (sourceFile outputDir outputPath : List UInt8) (format : AudioFormat)
    (hex : env.fileExists sourceFile = true)
    (hprobe : env.probeLaunchOk = true)
    (hbuild : buildOutputPath sourceFile outputDir format = .ok outputPath)
    (hbad : validUtf8 sourceFile = false ∨ validUtf8 outputPath = false) :
    (convertSingleFile env sourceFile outputDir format).1 = .error .invalidPath
    ∧ ∀ args, Event.run args ∉ (convertSingleFile env sourceFile outputDir format).2 := by
  have hexec : executeFfmpegConversion env sourceFile outputPath format
      = (.error .invalidPath, []) := by
    unfold executeFfmpegConversion osToStr
    rcases hbad with hb | hb
    · rw [hb]
      simp
    · cases hsv : validUtf8 sourceFile <;> simp [hb]
  have hconv : convertSingleFile env sourceFile outputDir format
      = (.error .invalidPath, [.probe]) := by
    unfold convertSingleFile
    simp [hex, hbuild, checkFfmpegAvailability, hprobe, hexec]
  rw [hconv]
  exact ⟨rfl, by simp⟩

/-- Witness for C10: the one-byte path `0xFF` (not valid UTF-8) is rejected
with `InvalidPath` and the conversion subprocess is never launched. -/
theorem convert_single_rejects_non_utf8_witness :
    validUtf8 [255] = false
    ∧ (convertSingleFile allEnv [255] (ascii "out") AudioFormat.mp3).1
        = .error .invalidPath :=
  ⟨by decide,
    (convert_single_rejects_non_utf8 allEnv [255] (ascii "out")
      (pathJoin (ascii "out") (utf8Lossy [255] ++ DOT :: ascii "mp3"))
      AudioFormat.mp3 rfl rfl (by rfl) (Or.inl (by decide))).1⟩

/-! ## Claim theorem: selector parsing -/
/-- **C9.** Selector parsing is surjective onto the format list and
bijective on ordinals: every supported format is hit by at least one input
string; the ordinal strings "1", "2", "3" (`allFormats` has length 3) map to
the formats in list order, which is a bijection because the list has no
duplicates; and matching trims surrounding whitespace and is
case-insensitive on names. -/
theorem from_user_input_selector_bijection :
    (∀ format : AudioFormat, ∃ s : String, AudioFormat.fromUserInput s = .ok format)
    ∧ AudioFormat.allFormats = [.mp3, .aacCopy, .opus]
    ∧ AudioFormat.allFormats.length = 3
    ∧ AudioFormat.allFormats.Nodup
    ∧ AudioFormat.fromUserInput "1" = .ok .mp3
    ∧ AudioFormat.fromUserInput "2" = .ok .aacCopy
    ∧ AudioFormat.fromUserInput "3" = .ok .opus
    ∧ AudioFormat.fromUserInput "  MP3  " = .ok .mp3
    ∧ AudioFormat.fromUserInput "AAC-Copy" = .ok .aacCopy
    ∧ AudioFormat.fromUserInput " Opus " = .ok .opus
    ∧ AudioFormat.fromUserInput "" = .error .invalidInput
    ∧ AudioFormat.fromUserInput "4" = .error .invalidInput := by
  refine ⟨?_, rfl, rfl, by decide, rfl, rfl, rfl, ?_, ?_, ?_, ?_, ?_⟩
  · intro format
    cases format with
    | mp3 => exact ⟨"mp3", rfl⟩
    | aacCopy => exact ⟨"aac", rfl⟩
    | opus => exact ⟨"opus", rfl⟩
  all_goals rfl

/-! ## Properties of the directory walk -/
mutual
theorem file_mem_walkTree (base p : List UInt8) (t : FsTree) :
    (Except.ok (p, true) : WEntry) ∈ walkTree base t ↔ fileInTree base p t = true := by
  cases t with
  | file n => simp [walkTree, fileInTree, eq_comm]
  | badDir n => simp [walkTree, fileInTree]
  | dir n cs =>
    simp [walkTree, fileInTree, file_mem_walkForest (pathJoin base n) p cs]
theorem file_mem_walkForest (base p : List UInt8) (ts : FsForest) :
    (Except.ok (p, true) : WEntry) ∈ walkForest base ts ↔ fileInForest base p ts = true := by
  cases ts with
  | nil => simp [walkForest, fileInForest]
  | cons t ts2 =>
    simp [walkForest, fileInForest, List.mem_append,
      file_mem_walkTree base p t, file_mem_walkForest base p ts2]
end

mutual
theorem error_mem_walkTree (base : List UInt8) (t : FsTree) :
    (Except.error () : WEntry) ∈ walkTree base t ↔ hasBadTree t = true := by
  cases t with
  | file n => simp [walkTree, hasBadTree]
  | badDir n => simp [walkTree, hasBadTree]
  | dir n cs => simp [walkTree, hasBadTree, error_mem_walkForest (pathJoin base n) cs]
theorem error_mem_walkForest (base : List UInt8) (ts : FsForest) :
    (Except.error () : WEntry) ∈ walkForest base ts ↔ hasBadForest ts = true := by
  cases ts with
  | nil => simp [walkForest, hasBadForest]
  | cons t ts2 =>
    simp [walkForest, hasBadForest, List.mem_append,
      error_mem_walkTree base t, error_mem_walkForest base ts2]
end

theorem entryToResult_eq_ok (x : WEntry) (p : List UInt8) :
    entryToResult x = some (.ok p) ↔ x = .ok (p, true) := by
  cases x with
  | ok pr =>
    obtain ⟨q, flag⟩ := pr
    cases flag <;> simp [entryToResult, eq_comm]
  | error u => simp [entryToResult]

theorem entryToResult_eq_error (x : WEntry) (e : VErr)
    (h : entryToResult x = some (.error e)) : e = .io ∧ x = .error () := by
  cases x with
  | ok pr =>
    obtain ⟨q, flag⟩ := pr
    cases flag <;> simp [entryToResult] at h
  | error u => simpa [entryToResult, eq_comm] using h

theorem collectResults_no_error :
    ∀ l : List (Except VErr (List UInt8)), (∀ e, Except.error e ∉ l) →
      ∃ found, collectResults l = .ok found ∧ ∀ p, p ∈ found ↔ .ok p ∈ l := by
  intro l
  induction l with
  | nil => exact fun _ => ⟨[], rfl, by simp⟩
  | cons x rest ih =>
    intro h
    cases x with
    | error e => exact absurd (List.mem_cons_self _ _) (h e)
    | ok a =>
      obtain ⟨found, hcol, hmem⟩ := ih (fun e he => h e (List.mem_cons_of_mem _ he))
      refine ⟨a :: found, ?_, ?_⟩
      · show (collectResults rest).map (a :: ·) = .ok (a :: found)
        rw [hcol]
        rfl
      · intro p
        simp [hmem p]

theorem collectResults_first_error :
    ∀ l : List (Except VErr (List UInt8)), Except.error VErr.io ∈ l →
      (∀ e, Except.error e ∈ l → e = VErr.io) → collectResults l = .error .io := by
  intro l
  induction l with
  | nil => intro hex _; simp at hex
  | cons x rest ih =>
    intro hex hall
    cases x with
    | error e =>
      have he : e = VErr.io := hall e (List.mem_cons_self _ _)
      subst he
      rfl
    | ok a =>
      have hex2 : Except.error VErr.io ∈ rest := by
        rcases List.mem_cons.mp hex with h | h
        · exact absurd h (by simp)
        · exact h
      show (collectResults rest).map (a :: ·) = .error .io
      rw [ih hex2 (fun e he => hall e (List.mem_cons_of_mem _ he))]
      rfl

theorem lowerByte_le_127 (b : UInt8) (h : lowerByte b ≤ 127) : b ≤ 127 := by
  unfold lowerByte at h
  split_ifs at h with hb
  · have h1 : b.toNat ≤ 90 := hb.2
    show b.toNat ≤ 127
    omega
  · exact h

theorem rustLowercase_cons (b : UInt8) (rest : List UInt8)
    (hk : ¬(b = 226 ∧ ∃ rest2, rest = 132 :: 170 :: rest2)) :
    rustLowercase (b :: rest) = lowerByte b :: rustLowercase rest := by
  rw [rustLowercase.eq_def]
  split
  · rename_i heq
    exact absurd heq (by simp)
  · rename_i r heq
    exfalso
    apply hk
    injection heq with h1 h2
    exact ⟨h1, r, h2⟩
  · rename_i heq
    injection heq with h1 h2
    rw [h1, h2]

theorem valid_of_rustLower_ascii :
    ∀ (n : Nat) (e : List UInt8), e.length ≤ n →
      (∀ b ∈ rustLowercase e, b ≤ 127) → validUtf8 e = true := by
  intro n
  induction n with
  | zero =>
    intro e hlen _
    rw [List.length_eq_zero.mp (Nat.le_zero.mp hlen)]
    rfl
  | succ n ih =>
    intro e hlen hasc
    cases e with
    | nil => rfl
    | cons b rest =>
      by_cases hk : b = 226 ∧ ∃ rest2, rest = 132 :: 170 :: rest2
      · obtain ⟨rfl, rest2, rfl⟩ := hk
        have hred : validUtf8 (226 :: 132 :: 170 :: rest2) = validUtf8 rest2 := rfl
        have hout : rustLowercase (226 :: 132 :: 170 :: rest2)
            = 107 :: rustLowercase rest2 := rfl
        rw [hred]
        rw [hout] at hasc
        refine ih rest2 ?_ (fun x hx => hasc x (List.mem_cons_of_mem _ hx))
        simp only [List.length_cons] at hlen
        omega
      · have hout := rustLowercase_cons b rest hk
        rw [hout] at hasc
        have hb : b ≤ 127 :=
          lowerByte_le_127 b (hasc (lowerByte b) (List.mem_cons_self _ _))
        show validAux none (b :: rest) = true
        simp only [validAux, feed, startByte, hb, if_pos]
        exact ih rest (by simp only [List.length_cons] at hlen; omega)
          (fun x hx => hasc x (List.mem_cons_of_mem _ hx))

theorem valid_of_rustLower_mem_supported (e : List UInt8)
    (h : rustLowercase e ∈ supportedExtensions) : validUtf8 e = true := by
  have hlist : ∀ x ∈ supportedExtensions, ∀ b ∈ x, b ≤ 127 := by decide
  exact valid_of_rustLower_ascii e.length e (Nat.le_refl _)
    (fun b hb => hlist (rustLowercase e) h b hb)

theorem isSupportedVideoFile_iff (p : List UInt8) :
    isSupportedVideoFile p = true
      ↔ ∃ e, pathExtension p = some e ∧ rustLowercase e ∈ supportedExtensions := by
  cases hext : pathExtension p with
  | none => simp [isSupportedVideoFile, hext]
  | some e =>
    have hred : isSupportedVideoFile p
        = (match osToStr e with
           | none => false
           | some s => decide (rustLowercase s ∈ supportedExtensions)) := by
      unfold isSupportedVideoFile
      rw [hext]
    rw [hred]
    unfold osToStr
    by_cases hv : validUtf8 e = true
    · rw [if_pos hv]
      simp
    · rw [if_neg hv]
      constructor
      · intro h
        exact absurd h (by simp)
      · rintro ⟨e2, he2, hmem⟩
        obtain rfl := Option.some.inj he2
        exact absurd (valid_of_rustLower_mem_supported e hmem) hv

/-! ## Claim theorems: file discovery -/
/-- **C4.** For every existing directory root (modelled as the root path
with its forest of children), when the walk hits no unreadable entry,
`find_video_files` succeeds and returns exactly the set of regular files in
the tree, at any depth, whose extension lowercased belongs to the fixed
allow-list {mp4, mkv, avi, mov, webm, flv, wmv, m4v, 3gp, ts}; uppercase and
mixed-case extensions are discovered identically to lowercase, and the
lowercasing is Unicode `str::to_lowercase` (`rustLowercase` is its exact
image on this comparison, including U+212A KELVIN SIGN → `k`); directories
and files with a non-matching or missing extension are never included. -/
theorem find_video_files_exact (sourceDir : List UInt8) (cs : FsForest)
    (hclean : hasBadForest cs = false) :
    ∃ found, findVideoFiles sourceDir cs = .ok found
      ∧ ∀ p, p ∈ found ↔
          (fileInForest sourceDir p cs = true
            ∧ ∃ e, pathExtension p = some e ∧ rustLowercase e ∈ supportedExtensions) := by
  have hnoerr : ∀ e, Except.error e
      ∉ (((.ok (sourceDir, false) :: walkForest sourceDir cs).filterMap
        entryToResult).filter keepResult) := by
    intro e he
    have hmm := (List.mem_filter.mp he).1
    obtain ⟨x, hx, hxe⟩ := List.mem_filterMap.mp hmm
    obtain ⟨_, hxerr⟩ := entryToResult_eq_error x e hxe
    subst hxerr
    rcases List.mem_cons.mp hx with h | h
    · exact Except.noConfusion h
    · rw [error_mem_walkForest sourceDir cs, hclean] at h
      exact Bool.noConfusion h
  obtain ⟨found, hcol, hmem⟩ := collectResults_no_error _ hnoerr
  refine ⟨found, hcol, ?_⟩
  intro p
  rw [hmem p, List.mem_filter, List.mem_filterMap]
  constructor
  · rintro ⟨⟨x, hx, hxe⟩, hkeep⟩
    rw [entryToResult_eq_ok] at hxe
    subst hxe
    rcases List.mem_cons.mp hx with h | h
    · exact absurd h (by simp)
    · rw [file_mem_walkForest sourceDir p cs] at h
      exact ⟨h, (isSupportedVideoFile_iff p).mp hkeep⟩
  · rintro ⟨hfile, hsupp⟩
    refine ⟨⟨.ok (p, true), ?_, (entryToResult_eq_ok _ p).mpr rfl⟩, ?_⟩
    · exact List.mem_cons_of_mem _ ((file_mem_walkForest sourceDir p cs).mpr hfile)
    · exact (isSupportedVideoFile_iff p).mpr hsupp

/-- Witness for C4: on the concrete tree, the uppercase `a.MP4`, the
Kelvin-sign `d.m\u212Av` (whose extension Unicode-lowercases to `mkv`) and
the nested `c.mkv` are all supported — `b.txt` is not — and the theorem
applies with its hypothesis discharged by evaluation. -/
theorem find_video_files_exact_witness :
    hasBadForest exForest = false
    ∧ isSupportedVideoFile (pathJoin (ascii "root") kelvinName) = true
    ∧ isSupportedVideoFile (pathJoin (ascii "root") (ascii "b.txt")) = false
    ∧ ∃ found, findVideoFiles (ascii "root") exForest = .ok found
      ∧ ∀ p, p ∈ found ↔
          (fileInForest (ascii "root") p exForest = true
            ∧ ∃ e, pathExtension p = some e ∧ rustLowercase e ∈ supportedExtensions) :=
  ⟨by decide, by decide, by decide,
    find_video_files_exact (ascii "root") exForest (by decide)⟩

/-- **C5.** If any entry encountered during the directory walk is unreadable,
`find_video_files` fails for the whole call with an I/O failure
(`VideoToAudioError::Io`) and returns no partial list of the files
discovered before the error. -/
theorem find_video_files_aborts (sourceDir : List UInt8) (cs : FsForest)
    (hbad : hasBadForest cs = true) :
    findVideoFiles sourceDir cs = .error .io := by
  apply collectResults_first_error
  · apply List.mem_filter.mpr
    refine ⟨List.mem_filterMap.mpr ⟨.error (), ?_, rfl⟩, rfl⟩
    exact List.mem_cons_of_mem _ ((error_mem_walkForest sourceDir cs).mpr hbad)
  · intro e he
    obtain ⟨x, hx, hxe⟩ := List.mem_filterMap.mp (List.mem_filter.mp he).1
    exact (entryToResult_eq_error x e hxe).1

/-- Witness for C5: walking the concrete tree with the unreadable `locked`
directory yields the I/O failure, not a partial list. -/
theorem find_video_files_aborts_witness :
    hasBadForest badForest = true
    ∧ findVideoFiles (ascii "root") badForest = .error .io :=
  ⟨by decide, find_video_files_aborts (ascii "root") badForest (by decide)⟩

end V2A
